import Mathlib

/-!
# uniqenum: `scraps/meta/rectangles.c`

A shallow embedding of the rectangle packer `rectangles.c` and the properties
of its divisor normaliser `evendiv`, its tiler `tile_vandermonde` and its
command-line driver `main`.

C `int` values are modelled as `Int`; C's `/` and `%` truncate towards zero and
are modelled by `Int.tdiv` and `Int.tmod`.  For `n ≥ 0` in the range of a 32-bit
`int` no intermediate value of the tiler or of `evendiv` leaves that range, so
they are computed on the integers.  Where a value can leave the range, the
32-bit operation is modelled with `wrap_int`: the macro `CEIL_DIV` on arbitrary
operands (`CEIL_DIV_int`) and the loop counter of `main` (`main_loop_int`,
`main_int`).  A division by zero is undefined in C, while `Int.tdiv x 0 = 0`
and `Int.tmod x 0 = x`; the results below are about inputs on which every
divisor is positive.

Output is modelled by what is written: the tiler yields the sequence of its
`put_rect(w, h)` calls, and the driver the text on standard output.
-/

namespace Uniqenum

/-! ## Constants and macros -/

/-- Exit status of a usage error: `#define EX_USAGE 3`. -/
def EX_USAGE : Int := 3

/-- Maximum macro arity: `#define K 127`. -/
def K : Int := 127

/-- Ceiling division macro: `#define CEIL_DIV(a, b) (((a) + (b) - 1) / (b))`, on
the integers; this is the macro on `int` as long as `a + b - 1` does not exceed
`INT_MAX`, which holds for every use inside the tiler. -/
def CEIL_DIV (a b : Int) : Int := (a + b - 1).tdiv b

/-- Max packing rectangle width, `#define MAX_W (K / 2)`, for a given `K`. -/
def MAX_W (k : Int) : Int := k.tdiv 2

/-- Max packing rectangle height, `#define MAX_H CEIL_DIV(K, 2)`, for a given `K`. -/
def MAX_H (k : Int) : Int := CEIL_DIV k 2

/-! ## The divisor normaliser -/

/-- Source function `evendiv`:
```c
int const r = x % y;
if (!r) return y;
int const q = x / y;
int const n = (y - r) / (q + 1);
return y - n;
```
-/
def evendiv (x y : Int) : Int :=
  let r := x.tmod y
  if r = 0 then y
  else
    let q := x.tdiv y
    let n := (y - r).tdiv (q + 1)
    y - n

/-! ## The tiler -/

/-- A rectangle as passed to `put_rect(w, h)`: width first, height second. -/
abbrev Rect := Int × Int

/-- Area `width * height` of a rectangle. -/
def Rect.area (r : Rect) : Int := r.1 * r.2

/-- Total area of a sequence of rectangles. -/
def totalArea (rs : List Rect) : Int := (rs.map Rect.area).sum

/-- A C loop `for (int i = 0; i < count; ++i) put_rect(w, h);`: the body runs
`count` times when `count` is positive and not at all otherwise. -/
def repeat_rect (count : Int) (w h : Int) : List Rect :=
  List.replicate count.toNat (w, h)

/-- The local variables of `tile_vandermonde` after the strip assignment,
together with the rectangles each phase passes to `put_rect`, in order. -/
structure Tiling where
  full_w : Int
  full_h : Int
  right_width : Int
  bottom_height : Int
  segments_for_bottom : Int
  segments_for_right : Int
  effective_right_h : Int
  effective_bottom_w : Int
  right_block_h : Int
  bottom_block_w : Int
  bulk : List Rect
  right : List Rect
  bottom : List Rect

/-- Source function `tile_vandermonde`, with the constant `K` as a parameter
`k`.  Every statement of the C body appears in order; `right_block_h` and
`bottom_block_w` are recorded with their final values (after `evendiv` when
the strip is tiled, `k - right_width` resp. `k - bottom_height` otherwise).
The two assignments of the `if (segments_for_bottom < segments_for_right)`
statement are the two conditional bindings of `effective_bottom_w` and
`effective_right_h`. -/
def tile_trace (k n : Int) : Tiling :=
  let full_w := n.tdiv 2
  let full_h := n - full_w
  -- for i < full_w / MAX_W, for j < full_h / MAX_H: put_rect(MAX_W, MAX_H)
  let bulk := (List.replicate (full_w.tdiv (MAX_W k)).toNat
    (repeat_rect (full_h.tdiv (MAX_H k)) (MAX_W k) (MAX_H k))).flatten
  let right_width := full_w.tmod (MAX_W k)
  let right_block_h := k - right_width
  let bottom_height := full_h.tmod (MAX_H k)
  let bottom_block_w := k - bottom_height
  let effective_right_h := full_h
  let effective_bottom_w := full_w
  let segments_for_bottom := CEIL_DIV (full_w - right_width) bottom_block_w
  let segments_for_right := CEIL_DIV (full_h - bottom_height) right_block_h
  let effective_bottom_w :=
    if segments_for_bottom < segments_for_right then effective_bottom_w - right_width
    else effective_bottom_w
  let effective_right_h :=
    if segments_for_bottom < segments_for_right then effective_right_h
    else effective_right_h - bottom_height
  -- Bande de droite
  let right_block_h :=
    if right_width ≠ 0 then evendiv effective_right_h right_block_h else right_block_h
  let right :=
    if right_width ≠ 0 then
      let leftover_h := effective_right_h.tmod right_block_h
      repeat_rect (effective_bottom_w.tdiv right_block_h) right_width right_block_h
        ++ (if leftover_h ≠ 0 then [(right_width, leftover_h)] else [])
    else []
  -- Bande du bas
  let bottom_block_w :=
    if bottom_height ≠ 0 then evendiv effective_bottom_w bottom_block_w else bottom_block_w
  let bottom :=
    if bottom_height ≠ 0 then
      let leftover_w := effective_bottom_w.tmod bottom_block_w
      repeat_rect (effective_bottom_w.tdiv bottom_block_w) bottom_block_w bottom_height
        ++ (if leftover_w ≠ 0 then [(leftover_w, bottom_height)] else [])
    else []
  { full_w, full_h, right_width, bottom_height, segments_for_bottom, segments_for_right,
    effective_right_h, effective_bottom_w, right_block_h, bottom_block_w,
    bulk, right, bottom }

/-- The rectangles `tile_vandermonde` emits for a cap constant `k`, in emission
order: bulk blocks, then the right strip, then the bottom strip. -/
def tile_vandermonde_k (k n : Int) : List Rect :=
  let t := tile_trace k n
  t.bulk ++ t.right ++ t.bottom

/-- The rectangles emitted by `tile_vandermonde(out, n)` with the compiled-in
`K = 127`. -/
def tile_vandermonde (n : Int) : List Rect := tile_vandermonde_k K n

/-! ## The driver -/

/-- The macro `put_rect(w, h)`, that is
`fprintf(out, first ? (first = false, "%d.%d") : " %d.%d", w, h)`:
the text written to `out` and the value of `first` afterwards. -/
def put_rect (first : Bool) (w h : Int) : String × Bool :=
  if first then (toString w ++ "." ++ toString h, false)
  else (" " ++ toString w ++ "." ++ toString h, first)

/-- The text written by a sequence of `put_rect` calls, threading `first`. -/
def print_rects : Bool → List Rect → String
  | _, [] => ""
  | first, r :: rs =>
    (put_rect first r.1 r.2).1 ++ print_rects (put_rect first r.1 r.2).2 rs

/-- One iteration of the loop of `main`:
`fprintf(out, "%d,", n); tile_vandermonde(out, n); putc('\n', out);`
where `tile_vandermonde` starts with `first = true`. -/
def row (n : Int) : String :=
  toString n ++ "," ++ print_rects true (tile_vandermonde n) ++ "\n"

/-- The loop `for (int n = min; n <= max; ++n) ...` of `main`, started at `n`
with `out` already written to standard output.  The counter ranges over the
integers, which is the C loop as long as `max` is below `INT_MAX`;
`main_loop_int` is the loop with the 32-bit counter. -/
def main_loop (max n : Int) (out : String) : String :=
  if n ≤ max then main_loop max (n + 1) (out ++ row n) else out
termination_by (max + 1 - n).toNat
decreasing_by omega

/-- The `switch (argc)` of `main`: the bounds `(min, max)` it sets, or `none`
on the `default` branch.  `argc` is the length of `argv`; libc's `atoi` is a
parameter. -/
def parse_args (atoi : String → Int) (argv : List String) : Option (Int × Int) :=
  match argv with
  | [_, a1] => some (3, atoi a1)
  | [_, a1, a2] => some (atoi a1, atoi a2)
  | _ => none

/-- What a run of the program leaves behind: the exit status and the text
written to standard output and standard error. -/
structure Run where
  status : Int
  stdout : String
  stderr : String

/-- Source function `main` with the loop over the integers (`main_loop`).
Falling off the end of `main` is exit status 0. -/
def main (atoi : String → Int) (argv : List String) : Run :=
  match parse_args atoi argv with
  | none =>
    { status := EX_USAGE, stdout := "",
      stderr := "usage: " ++ argv.headD "" ++ " [minN] maxN\n" }
  | some (min, max) =>
    if min < 2 ∨ max < 2 then
      { status := EX_USAGE, stdout := "",
        stderr := "invalid args: must be <2: min " ++ toString min ++ ", max "
          ++ toString max ++ "\n" }
    else
      { status := 0, stdout := main_loop max min "n,rects\n", stderr := "" }

/-- The integers `lo, lo + 1, ..., hi` in increasing order (empty when
`hi < lo`). -/
def int_range (lo hi : Int) : List Int :=
  (List.range (hi + 1 - lo).toNat).map (fun (i : Nat) => lo + (i : Int))

/-- A model of libc's `atoi` on well-formed input: leading white space, an
optional sign, then decimal digits up to the first other character. -/
def atoi (s : String) : Int :=
  let cs := s.toList.dropWhile Char.isWhitespace
  let body := match cs with
    | '-' :: t => t
    | '+' :: t => t
    | t => t
  let v : Int := (body.takeWhile Char.isDigit).foldl
    (fun acc c => acc * 10 + ((c.toNat - 48 : Nat) : Int)) 0
  match cs with
  | '-' :: _ => -v
  | _ => v

/-! ## 32-bit `int` arithmetic -/

/-- Largest value of a 32-bit `int`: `INT_MAX` of `<limits.h>`. -/
def INT_MAX : Int := 2147483647

/-- The 32-bit two's-complement `int` that holds the integer `v`: `v` itself from
`-2^31` to `2^31 - 1`, wrapped around outside.  Signed overflow is undefined in
C; this is the value the compiled program computes. -/
def wrap_int (v : Int) : Int := (v + 2147483648) % 4294967296 - 2147483648

/-- The macro `CEIL_DIV(a, b)`, `(((a) + (b) - 1) / (b))`, evaluated on `int`
operands: the sum and the decrement are 32-bit operations. -/
def CEIL_DIV_int (a b : Int) : Int := (wrap_int (wrap_int (a + b) - 1)).tdiv b

/-- The argument pairs `(x, y)` of the calls `evendiv(x, y)` made by
`tile_vandermonde`, in order: `evendiv(effective_right_h, right_block_h)` inside
`if (right_width)`, with `right_block_h` still `K - right_width`, and
`evendiv(effective_bottom_w, bottom_block_w)` inside `if (bottom_height)`, with
`bottom_block_w` still `K - bottom_height`. -/
def evendiv_calls (k n : Int) : List (Int × Int) :=
  let t := tile_trace k n
  (if t.right_width ≠ 0 then [(t.effective_right_h, k - t.right_width)] else [])
    ++ (if t.bottom_height ≠ 0 then [(t.effective_bottom_w, k - t.bottom_height)] else [])

/-- The divisors of the `%` and `/` operations of one call `evendiv(x, y)`:
`y` for `x % y` and `x / y`, then `q + 1` when the remainder is not zero. -/
def evendiv_divisors (x y : Int) : List Int :=
  y :: (if x.tmod y = 0 then [] else [x.tdiv y + 1])

/-- The divisors of the `/` and `%` operations executed by `tile_vandermonde`
for a cap constant `k`, in execution order: the constant 2, `MAX_W` and `MAX_H`
(bulk loops and strip remainders), the two `CEIL_DIV` divisors
`bottom_block_w = k - bottom_height` and `right_block_h = k - right_width`,
and, for each strip that is tiled, the divisors of its `evendiv` call followed
by the normalised block size used by its loop bound and its leftover. -/
def tile_divisors (k n : Int) : List Int :=
  let t := tile_trace k n
  [2, MAX_W k, MAX_H k, k - t.bottom_height, k - t.right_width]
    ++ (if t.right_width ≠ 0 then
          evendiv_divisors t.effective_right_h (k - t.right_width) ++ [t.right_block_h]
        else [])
    ++ (if t.bottom_height ≠ 0 then
          evendiv_divisors t.effective_bottom_w (k - t.bottom_height) ++ [t.bottom_block_w]
        else [])

/-- The most even split of `x` into as many blocks as blocks of size `y` need:
with `b = ⌈x / y⌉` blocks, the block size `⌈x / b⌉`. -/
def even_split (x y : Int) : Int := CEIL_DIV x (CEIL_DIV x y)

/-! ## Lemmas on `evendiv` -/

/-- On a non-negative `x` and a positive `y` the truncating operators agree with
floor division, which gives `evendiv` in terms of `/` and `%`. -/
theorem evendiv_eq {x y : Int} (hx : 0 ≤ x) (hy : 0 < y) :
    evendiv x y = if x % y = 0 then y else y - (y - x % y) / (x / y + 1) := by
  have hr : 0 ≤ x % y := Int.emod_nonneg x (ne_of_gt hy)
  have hr2 : x % y < y := Int.emod_lt_of_pos x hy
  have hq : 0 ≤ x / y := Int.ediv_nonneg hx hy.le
  unfold evendiv
  simp only [Int.tmod_eq_emod hx hy.le, Int.tdiv_eq_ediv hx hy.le]
  rw [Int.tdiv_eq_ediv (by omega) (by omega)]

/-- The reduction amount `n = (y - r) / (q + 1)` lies between `0` and `y - r`. -/
theorem delta_bounds {x y : Int} (hx : 0 ≤ x) (hy : 0 < y) :
    0 ≤ (y - x % y) / (x / y + 1) ∧ (y - x % y) / (x / y + 1) ≤ y - x % y := by
  have hr2 : x % y < y := Int.emod_lt_of_pos x hy
  have hq : 0 ≤ x / y := Int.ediv_nonneg hx hy.le
  constructor
  · exact Int.ediv_nonneg (by omega) (by omega)
  · exact Int.ediv_le_self _ (by omega)

/-- The normalised divisor never exceeds the candidate `y`. -/
theorem evendiv_le {x y : Int} (hx : 0 ≤ x) (hy : 0 < y) : evendiv x y ≤ y := by
  rw [evendiv_eq hx hy]
  have hd := delta_bounds hx hy
  split <;> omega

/-- The normalised divisor is positive: at least the remainder `r` when `r ≠ 0`. -/
theorem evendiv_pos {x y : Int} (hx : 0 ≤ x) (hy : 0 < y) : 0 < evendiv x y := by
  rw [evendiv_eq hx hy]
  have hd := delta_bounds hx hy
  have hr : 0 ≤ x % y := Int.emod_nonneg x (ne_of_gt hy)
  split <;> omega

/-- With the normalised divisor `y'` the total `x` still fits in `q + 1` blocks:
`x ≤ (q + 1) * y'` where `q = x / y`. -/
theorem evendiv_blocks {x y : Int} (hx : 0 ≤ x) (hy : 0 < y) :
    x ≤ (x / y + 1) * evendiv x y := by
  rw [evendiv_eq hx hy]
  have hr : 0 ≤ x % y := Int.emod_nonneg x (ne_of_gt hy)
  have hr2 : x % y < y := Int.emod_lt_of_pos x hy
  have hq : 0 ≤ x / y := Int.ediv_nonneg hx hy.le
  have hxy : y * (x / y) + x % y = x := Int.ediv_add_emod x y
  split
  · nlinarith
  · have hm : (y - x % y) / (x / y + 1) * (x / y + 1) ≤ y - x % y :=
      Int.ediv_mul_le _ (by omega)
    nlinarith

/-- The truncated quotient by the normalised divisor is `q` or `q + 1`. -/
theorem evendiv_quot {x y : Int} (hx : 0 ≤ x) (hy : 0 < y) :
    x / y ≤ x / evendiv x y ∧ x / evendiv x y ≤ x / y + 1 := by
  have hpos := evendiv_pos hx hy
  have hle := evendiv_le hx hy
  have hb := evendiv_blocks hx hy
  have hq : 0 ≤ x / y := Int.ediv_nonneg hx hy.le
  constructor
  · rw [Int.le_ediv_iff_mul_le hpos]
    have h1 : x / y * y ≤ x := Int.ediv_mul_le x (ne_of_gt hy)
    nlinarith
  · have h2 : x / evendiv x y * evendiv x y ≤ x := Int.ediv_mul_le x (ne_of_gt hpos)
    by_contra hc
    push_neg at hc
    have h3 : x / y + 2 ≤ x / evendiv x y := by omega
    nlinarith

/-! ## Lemmas on the tiler -/

theorem MAX_W_K : MAX_W K = 63 := by decide

theorem MAX_H_K : MAX_H K = 64 := by decide

/-- Members of a repeated `put_rect(w, h)` are `(w, h)`. -/
theorem mem_repeat_rect {c w h : Int} {r : Rect} (hr : r ∈ repeat_rect c w h) :
    r = (w, h) := by
  unfold repeat_rect at hr
  exact (List.mem_replicate.mp hr).2

/-- Every bulk block is `MAX_W × MAX_H`. -/
theorem mem_bulk {k n : Int} {r : Rect} (hr : r ∈ (tile_trace k n).bulk) :
    r = (MAX_W k, MAX_H k) := by
  have h : (tile_trace k n).bulk = (List.replicate ((n.tdiv 2).tdiv (MAX_W k)).toNat
      (repeat_rect ((n - n.tdiv 2).tdiv (MAX_H k)) (MAX_W k) (MAX_H k))).flatten := rfl
  rw [h, List.mem_flatten] at hr
  obtain ⟨l, hl, hrl⟩ := hr
  rw [(List.mem_replicate.mp hl).2] at hrl
  exact mem_repeat_rect hrl

theorem trace_full_w (k n : Int) : (tile_trace k n).full_w = n.tdiv 2 := rfl

theorem trace_full_h (k n : Int) :
    (tile_trace k n).full_h = n - (tile_trace k n).full_w := rfl

theorem trace_right_width (k n : Int) :
    (tile_trace k n).right_width = (tile_trace k n).full_w.tmod (MAX_W k) := rfl

theorem trace_bottom_height (k n : Int) :
    (tile_trace k n).bottom_height = (tile_trace k n).full_h.tmod (MAX_H k) := rfl

theorem trace_segments_for_bottom (k n : Int) :
    (tile_trace k n).segments_for_bottom =
      CEIL_DIV ((tile_trace k n).full_w - (tile_trace k n).right_width)
        (k - (tile_trace k n).bottom_height) := rfl

theorem trace_segments_for_right (k n : Int) :
    (tile_trace k n).segments_for_right =
      CEIL_DIV ((tile_trace k n).full_h - (tile_trace k n).bottom_height)
        (k - (tile_trace k n).right_width) := rfl

theorem trace_effective_bottom_w (k n : Int) :
    (tile_trace k n).effective_bottom_w =
      if (tile_trace k n).segments_for_bottom < (tile_trace k n).segments_for_right then
        (tile_trace k n).full_w - (tile_trace k n).right_width
      else (tile_trace k n).full_w := rfl

theorem trace_effective_right_h (k n : Int) :
    (tile_trace k n).effective_right_h =
      if (tile_trace k n).segments_for_bottom < (tile_trace k n).segments_for_right then
        (tile_trace k n).full_h
      else (tile_trace k n).full_h - (tile_trace k n).bottom_height := rfl

theorem trace_right_block_h (k n : Int) :
    (tile_trace k n).right_block_h =
      if (tile_trace k n).right_width ≠ 0 then
        evendiv (tile_trace k n).effective_right_h (k - (tile_trace k n).right_width)
      else k - (tile_trace k n).right_width := rfl

theorem trace_bottom_block_w (k n : Int) :
    (tile_trace k n).bottom_block_w =
      if (tile_trace k n).bottom_height ≠ 0 then
        evendiv (tile_trace k n).effective_bottom_w (k - (tile_trace k n).bottom_height)
      else k - (tile_trace k n).bottom_height := rfl

theorem trace_right (k n : Int) :
    (tile_trace k n).right =
      if (tile_trace k n).right_width ≠ 0 then
        repeat_rect ((tile_trace k n).effective_bottom_w.tdiv (tile_trace k n).right_block_h)
            (tile_trace k n).right_width (tile_trace k n).right_block_h
          ++ (if (tile_trace k n).effective_right_h.tmod (tile_trace k n).right_block_h ≠ 0
              then [((tile_trace k n).right_width,
                (tile_trace k n).effective_right_h.tmod (tile_trace k n).right_block_h)]
              else [])
      else [] := rfl

theorem trace_bottom (k n : Int) :
    (tile_trace k n).bottom =
      if (tile_trace k n).bottom_height ≠ 0 then
        repeat_rect ((tile_trace k n).effective_bottom_w.tdiv (tile_trace k n).bottom_block_w)
            (tile_trace k n).bottom_block_w (tile_trace k n).bottom_height
          ++ (if (tile_trace k n).effective_bottom_w.tmod (tile_trace k n).bottom_block_w ≠ 0
              then [((tile_trace k n).effective_bottom_w.tmod (tile_trace k n).bottom_block_w,
                (tile_trace k n).bottom_height)]
              else [])
      else [] := rfl

theorem mem_tile_vandermonde {n : Int} {r : Rect} :
    r ∈ tile_vandermonde n ↔
      r ∈ (tile_trace K n).bulk ∨ r ∈ (tile_trace K n).right ∨ r ∈ (tile_trace K n).bottom := by
  unfold tile_vandermonde tile_vandermonde_k
  simp only [List.mem_append, or_assoc]

/-- Ranges of the footprint and strip variables for `n ≥ 2` and `K = 127`. -/
theorem trace_ranges {n : Int} (hn : 2 ≤ n) :
    1 ≤ (tile_trace K n).full_w ∧ (tile_trace K n).full_w ≤ (tile_trace K n).full_h ∧
    0 ≤ (tile_trace K n).right_width ∧ (tile_trace K n).right_width ≤ 62 ∧
    (tile_trace K n).right_width ≤ (tile_trace K n).full_w ∧
    0 ≤ (tile_trace K n).bottom_height ∧ (tile_trace K n).bottom_height ≤ 63 ∧
    (tile_trace K n).bottom_height ≤ (tile_trace K n).full_h := by
  have hw : (tile_trace K n).full_w = n / 2 := by
    rw [trace_full_w, Int.tdiv_eq_ediv (by omega) (by omega)]
  have hh : (tile_trace K n).full_h = n - n / 2 := by rw [trace_full_h, hw]
  have hrw : (tile_trace K n).right_width = (n / 2) % 63 := by
    rw [trace_right_width, hw, MAX_W_K, Int.tmod_eq_emod (by omega) (by omega)]
  have hbh : (tile_trace K n).bottom_height = (n - n / 2) % 64 := by
    rw [trace_bottom_height, hh, MAX_H_K, Int.tmod_eq_emod (by omega) (by omega)]
  rw [hw, hh, hrw, hbh]
  omega

/-- The strip assignment leaves both effective extents non-negative. -/
theorem trace_effective_nonneg {n : Int} (hn : 2 ≤ n) :
    0 ≤ (tile_trace K n).effective_right_h ∧ 0 ≤ (tile_trace K n).effective_bottom_w := by
  have h := trace_ranges hn
  rw [trace_effective_right_h, trace_effective_bottom_w]
  split <;> omega

/-- Shape of the right-strip rectangles: width `right_width ≥ 1` and a positive
height of at most `K - right_width`. -/
theorem mem_right {n : Int} (hn : 2 ≤ n) {r : Rect} (hr : r ∈ (tile_trace K n).right) :
    r.1 = (tile_trace K n).right_width ∧ 1 ≤ r.1 ∧ r.1 ≤ 62 ∧ 1 ≤ r.2 ∧ r.2 ≤ K - r.1 := by
  have hK : K = 127 := rfl
  have hrg := trace_ranges hn
  have he := trace_effective_nonneg hn
  rw [trace_right] at hr
  by_cases hw : (tile_trace K n).right_width = 0
  · simp [hw] at hr
  · have hy : 0 < K - (tile_trace K n).right_width := by omega
    have hb : (tile_trace K n).right_block_h =
        evendiv (tile_trace K n).effective_right_h (K - (tile_trace K n).right_width) := by
      rw [trace_right_block_h, if_pos hw]
    have hpos := evendiv_pos he.1 hy
    have hle := evendiv_le he.1 hy
    rw [← hb] at hpos hle
    rw [if_pos hw, List.mem_append] at hr
    rcases hr with hr | hr
    · rw [mem_repeat_rect hr]
      simp only [true_and]
      omega
    · have hm : (tile_trace K n).effective_right_h.tmod (tile_trace K n).right_block_h =
          (tile_trace K n).effective_right_h % (tile_trace K n).right_block_h :=
        Int.tmod_eq_emod he.1 hpos.le
      have h0 := Int.emod_nonneg (tile_trace K n).effective_right_h (ne_of_gt hpos)
      have h1 := Int.emod_lt_of_pos (tile_trace K n).effective_right_h hpos
      rw [hm] at hr
      split at hr
      · rw [List.mem_singleton] at hr
        rw [hr]
        simp only [true_and]
        omega
      · simp at hr

/-- Shape of the bottom-strip rectangles: height `bottom_height ≥ 1` and a
positive width of at most `K - bottom_height`. -/
theorem mem_bottom {n : Int} (hn : 2 ≤ n) {r : Rect} (hr : r ∈ (tile_trace K n).bottom) :
    r.2 = (tile_trace K n).bottom_height ∧ 1 ≤ r.2 ∧ r.2 ≤ 63 ∧ 1 ≤ r.1 ∧ r.1 ≤ K - r.2 := by
  have hK : K = 127 := rfl
  have hrg := trace_ranges hn
  have he := trace_effective_nonneg hn
  rw [trace_bottom] at hr
  by_cases hw : (tile_trace K n).bottom_height = 0
  · simp [hw] at hr
  · have hy : 0 < K - (tile_trace K n).bottom_height := by omega
    have hb : (tile_trace K n).bottom_block_w =
        evendiv (tile_trace K n).effective_bottom_w (K - (tile_trace K n).bottom_height) := by
      rw [trace_bottom_block_w, if_pos hw]
    have hpos := evendiv_pos he.2 hy
    have hle := evendiv_le he.2 hy
    rw [← hb] at hpos hle
    rw [if_pos hw, List.mem_append] at hr
    rcases hr with hr | hr
    · rw [mem_repeat_rect hr]
      simp only [true_and]
      omega
    · have hm : (tile_trace K n).effective_bottom_w.tmod (tile_trace K n).bottom_block_w =
          (tile_trace K n).effective_bottom_w % (tile_trace K n).bottom_block_w :=
        Int.tmod_eq_emod he.2 hpos.le
      have h0 := Int.emod_nonneg (tile_trace K n).effective_bottom_w (ne_of_gt hpos)
      have h1 := Int.emod_lt_of_pos (tile_trace K n).effective_bottom_w hpos
      rw [hm] at hr
      split at hr
      · rw [List.mem_singleton] at hr
        rw [hr]
        simp only [true_and]
        omega
      · simp at hr

/-! ## Lemmas on the driver -/

theorem foldl_append_init (l : List String) :
    ∀ a : String, List.foldl (fun r s => r ++ s) a l = a ++ List.foldl (fun r s => r ++ s) "" l := by
  induction l with
  | nil => intro a; simp
  | cons s l ih =>
    intro a
    rw [List.foldl_cons, List.foldl_cons, ih (a ++ s), ih ("" ++ s)]
    simp [String.append_assoc]

theorem join_cons (s : String) (l : List String) :
    String.join (s :: l) = s ++ String.join l := by
  unfold String.join
  rw [List.foldl_cons, foldl_append_init l ("" ++ s)]
  simp

theorem int_range_of_lt {lo hi : Int} (h : hi < lo) : int_range lo hi = [] := by
  unfold int_range
  have : (hi + 1 - lo).toNat = 0 := by omega
  rw [this]
  rfl

theorem int_range_cons {lo hi : Int} (h : lo ≤ hi) :
    int_range lo hi = lo :: int_range (lo + 1) hi := by
  unfold int_range
  have h1 : (hi + 1 - lo).toNat = (hi + 1 - (lo + 1)).toNat + 1 := by omega
  rw [h1, List.range_succ_eq_map, List.map_cons, List.map_map]
  congr 1
  · simp
  · apply List.map_congr_left
    intro i _
    simp only [Function.comp_apply, Nat.cast_succ]
    omega

/-- The loop appends one `row` per integer from `n` to `max`. -/
theorem main_loop_eq (max : Int) :
    ∀ (c : Nat) (n : Int) (out : String), (max + 1 - n).toNat = c →
      main_loop max n out = out ++ String.join ((int_range n max).map row) := by
  intro c
  induction c with
  | zero =>
    intro n out h
    have hlt : max < n := by omega
    rw [main_loop, if_neg (by omega), int_range_of_lt hlt]
    simp [String.join]
  | succ c ih =>
    intro n out h
    have hle : n ≤ max := by omega
    rw [main_loop, if_pos hle, ih (n + 1) (out ++ row n) (by omega), int_range_cons hle,
      List.map_cons, join_cons, String.append_assoc]

/-! ## Claims -/

/-- C1: the claim asks that for every `n ≥ 2` the areas of the emitted rectangles
sum to `full_w * full_h`.  At `n = 255` the footprint is `127 × 128 = 16256`
cells, the strip assignment gives `effective_bottom_w = 126` and
`effective_right_h = 128`, the right strip's block height is normalised to 64,
and the right strip's loop, counting `effective_bottom_w / right_block_h = 1`
instead of `effective_right_h / right_block_h = 2`, emits one `1 × 64` block:
the emitted area is `16192`, 64 cells short. -/
theorem tile_vandermonde_area_255 :
    (tile_trace K 255).full_w * (tile_trace K 255).full_h = 16256 ∧
    (tile_trace K 255).effective_bottom_w = 126 ∧
    (tile_trace K 255).effective_right_h = 128 ∧
    (tile_trace K 255).right_block_h = 64 ∧
    tile_vandermonde 255 = [(63, 64), (63, 64), (63, 64), (63, 64), (1, 64)] ∧
    totalArea (tile_vandermonde 255) = 16192 := by
  decide

/-- C2, as stated, fails: for `n = 129` the bottom strip emits the rectangle
`64 × 1`, wider than `MAX_W = 63`. -/
theorem size_cap_fails_129 :
    ¬ ∀ n : Int, 2 ≤ n → ∀ r ∈ tile_vandermonde n,
      1 ≤ r.1 ∧ r.1 ≤ MAX_W K ∧ 1 ≤ r.2 ∧ r.2 ≤ MAX_H K := by
  intro h
  have h1 := h 129 (by decide) (64, 1) (by decide)
  exact absurd h1.2.1 (by decide)

/-- C2, amended: for every `n ≥ 2` every emitted rectangle has width and height
at least 1 and is a `MAX_W × MAX_H` bulk block, or a right-strip rectangle of
width below `MAX_W` and height at most `K` minus its width, or a bottom-strip
rectangle of height below `MAX_H` and width at most `K` minus its height; and
for `n ≤ 128` every emitted rectangle is within both caps. -/
theorem size_cap_by_phase (n : Int) (hn : 2 ≤ n) :
    (∀ r ∈ tile_vandermonde n, 1 ≤ r.1 ∧ 1 ≤ r.2 ∧
      (r = (MAX_W K, MAX_H K) ∨ (r.1 < MAX_W K ∧ r.2 ≤ K - r.1) ∨
        (r.2 < MAX_H K ∧ r.1 ≤ K - r.2))) ∧
    (n ≤ 128 → ∀ r ∈ tile_vandermonde n,
      1 ≤ r.1 ∧ r.1 ≤ MAX_W K ∧ 1 ≤ r.2 ∧ r.2 ≤ MAX_H K) := by
  constructor
  · intro r hr
    rw [mem_tile_vandermonde] at hr
    rcases hr with hr | hr | hr
    · rw [mem_bulk hr]
      decide
    · have h := mem_right hn hr
      rw [MAX_W_K]
      refine ⟨h.2.1, h.2.2.2.1, Or.inr (Or.inl ⟨?_, h.2.2.2.2⟩)⟩
      omega
    · have h := mem_bottom hn hr
      rw [MAX_H_K]
      refine ⟨h.2.2.2.1, h.2.1, Or.inr (Or.inr ⟨?_, h.2.2.2.2⟩)⟩
      omega
  · intro h128
    interval_cases n <;> decide

/-- Instance of `size_cap_by_phase` at `n = 129`, where the cap on the width is
exceeded by the bottom-strip rectangle `64 × 1`. -/
theorem size_cap_by_phase_witness :
    (2 : Int) ≤ 129 ∧ ∀ r ∈ tile_vandermonde 129, 1 ≤ r.1 ∧ 1 ≤ r.2 ∧
      (r = (MAX_W K, MAX_H K) ∨ (r.1 < MAX_W K ∧ r.2 ≤ K - r.1) ∨
        (r.2 < MAX_H K ∧ r.1 ≤ K - r.2)) :=
  ⟨by decide, (size_cap_by_phase 129 (by decide)).1⟩

/-- C3: for every `n ≥ 2` every emitted rectangle has width at least 1, height
at least 1 and width plus height at most `K = 127`; the bulk caps add up to `K`,
and every right-strip (bottom-strip) rectangle has the strip's fixed width
(height) and a height (width) of at most `K` minus it. -/
theorem joint_bound (n : Int) (hn : 2 ≤ n) :
    (∀ r ∈ tile_vandermonde n, 1 ≤ r.1 ∧ 1 ≤ r.2 ∧ r.1 + r.2 ≤ K) ∧
    MAX_W K + MAX_H K = K ∧ K = 127 ∧
    (∀ r ∈ (tile_trace K n).right,
      r.1 = (tile_trace K n).right_width ∧ r.2 ≤ K - (tile_trace K n).right_width) ∧
    (∀ r ∈ (tile_trace K n).bottom,
      r.2 = (tile_trace K n).bottom_height ∧ r.1 ≤ K - (tile_trace K n).bottom_height) := by
  refine ⟨?_, by decide, rfl, ?_, ?_⟩
  · intro r hr
    rw [mem_tile_vandermonde] at hr
    rcases hr with hr | hr | hr
    · rw [mem_bulk hr]
      decide
    · have h := mem_right hn hr
      refine ⟨h.2.1, h.2.2.2.1, ?_⟩
      omega
    · have h := mem_bottom hn hr
      refine ⟨h.2.2.2.1, h.2.1, ?_⟩
      omega
  · intro r hr
    have h := mem_right hn hr
    refine ⟨h.1, ?_⟩
    rw [← h.1]
    exact h.2.2.2.2
  · intro r hr
    have h := mem_bottom hn hr
    refine ⟨h.1, ?_⟩
    rw [← h.1]
    exact h.2.2.2.2

/-- Instance of `joint_bound` at `n = 1300`, whose tiling has bulk blocks and
both strips. -/
theorem joint_bound_witness :
    (2 : Int) ≤ 1300 ∧ ∀ r ∈ tile_vandermonde 1300, 1 ≤ r.1 ∧ 1 ≤ r.2 ∧ r.1 + r.2 ≤ K :=
  ⟨by decide, (joint_bound 1300 (by decide)).1⟩

/-- C4: for `1 ≤ y ≤ x`, `evendiv x y = y` when `x mod y = 0`, and otherwise
`1 ≤ evendiv x y ≤ y`. -/
theorem evendiv_contract (x y : Int) (hy : 1 ≤ y) (hxy : y ≤ x) :
    (x.tmod y = 0 → evendiv x y = y) ∧
    (x.tmod y ≠ 0 → 1 ≤ evendiv x y ∧ evendiv x y ≤ y) := by
  have hx : 0 ≤ x := by omega
  have hy0 : 0 < y := by omega
  constructor
  · intro h
    unfold evendiv
    simp only [h, if_true]
  · intro _
    have hp := evendiv_pos hx hy0
    exact ⟨by omega, evendiv_le hx hy0⟩

/-- Instance of `evendiv_contract` at the comment's example `x = 126`, `y = 65`. -/
theorem evendiv_contract_witness :
    ((1 : Int) ≤ 65 ∧ (65 : Int) ≤ 126) ∧
    (((126 : Int).tmod 65 = 0 → evendiv 126 65 = 65) ∧
      ((126 : Int).tmod 65 ≠ 0 → 1 ≤ evendiv 126 65 ∧ evendiv 126 65 ≤ 65)) :=
  ⟨by decide, evendiv_contract 126 65 (by decide) (by decide)⟩

/-- C5: for `1 ≤ y ≤ x` and `y' = evendiv x y` the truncated quotient grows by at
most one: `x / y ≤ x / y' ≤ x / y + 1`. -/
theorem evendiv_quotient_step (x y : Int) (hy : 1 ≤ y) (hxy : y ≤ x) :
    x.tdiv y ≤ x.tdiv (evendiv x y) ∧ x.tdiv (evendiv x y) ≤ x.tdiv y + 1 := by
  have hx : 0 ≤ x := by omega
  have hy0 : 0 < y := by omega
  have hp := evendiv_pos hx hy0
  rw [Int.tdiv_eq_ediv hx hy0.le, Int.tdiv_eq_ediv hx hp.le]
  exact evendiv_quot hx hy0

/-- Instance of `evendiv_quotient_step` at `x = 126`, `y = 65`, where the
quotient grows from 1 to 2. -/
theorem evendiv_quotient_step_witness :
    ((1 : Int) ≤ 65 ∧ (65 : Int) ≤ 126) ∧
    ((126 : Int).tdiv 65 ≤ (126 : Int).tdiv (evendiv 126 65) ∧
      (126 : Int).tdiv (evendiv 126 65) ≤ (126 : Int).tdiv 65 + 1) :=
  ⟨by decide, evendiv_quotient_step 126 65 (by decide) (by decide)⟩

/-- C6: the comment on `evendiv` promises a value strictly below `y` whenever
`x % y` is not zero.  At `x = 5`, `y = 3` the remainder is 2 and the reduction
amount `(3 - 2) / (1 + 1)` is 0, so the code returns `y = 3` itself; the
comment's example `evendiv(126, 65) = 63` does hold. -/
theorem evendiv_5_3 :
    (5 : Int).tmod 3 = 2 ∧ (3 - (5 : Int).tmod 3).tdiv ((5 : Int).tdiv 3 + 1) = 0 ∧
    evendiv 5 3 = 3 ∧ evendiv 126 65 = 63 := by
  decide

/-- C7: for `2 ≤ n ≤ 127` the tiler emits exactly one rectangle, of width `n / 2`
and height `n - n / 2`; `n = 2` gives the single rectangle `1.1`; `n = 5` has
footprint `2 × 3`, no bulk block, and total area 6. -/
theorem small_footprint_single_rect :
    (∀ n : Int, 2 ≤ n → n ≤ 127 → tile_vandermonde n = [(n.tdiv 2, n - n.tdiv 2)]) ∧
    tile_vandermonde 2 = [(1, 1)] ∧
    (tile_trace K 5).full_w = 2 ∧ (tile_trace K 5).full_h = 3 ∧
    (tile_trace K 5).bulk = [] ∧ (MAX_W K, MAX_H K) ∉ tile_vandermonde 5 ∧
    totalArea (tile_vandermonde 5) = 6 := by
  refine ⟨?_, by decide, by decide, by decide, by decide, by decide, by decide⟩
  intro n h1 h2
  interval_cases n <;> decide

/-- Instance of `small_footprint_single_rect` at `n = 100`. -/
theorem small_footprint_single_rect_witness :
    ((2 : Int) ≤ 100 ∧ (100 : Int) ≤ 127) ∧ tile_vandermonde 100 = [(50, 50)] :=
  ⟨by decide, small_footprint_single_rect.1 100 (by decide) (by decide)⟩

/-- C8: with `K = 8` (`MAX_W = MAX_H = 4`) and `n = 20` (footprint `10 × 10`) the
tiler emits four `4.4` bulk blocks, two `2.4` rectangles for the right strip
(effective height 8) and two `5.2` rectangles for the bottom strip (effective
width 10, so the `2 × 2` corner belongs to the bottom strip only); the total
area is 100. -/
theorem tile_k8_n20 :
    MAX_W 8 = 4 ∧ MAX_H 8 = 4 ∧
    (tile_trace 8 20).full_w = 10 ∧ (tile_trace 8 20).full_h = 10 ∧
    (4, 4) ∈ tile_vandermonde_k 8 20 ∧
    (tile_trace 8 20).right = [(2, 4), (2, 4)] ∧
    (tile_trace 8 20).bottom = [(5, 2), (5, 2)] ∧
    (tile_trace 8 20).effective_right_h = 8 ∧ (tile_trace 8 20).effective_bottom_w = 10 ∧
    tile_vandermonde_k 8 20 =
      [(4, 4), (4, 4), (4, 4), (4, 4), (2, 4), (2, 4), (5, 2), (5, 2)] ∧
    totalArea (tile_vandermonde_k 8 20) = 100 := by
  decide

/-- C10: the file header says that `rectangles [maxN]` computes the packing for
`N` from 2 to `max`.  The one-argument branch of `main` sets `min = 3`: for
`rectangles 5` the output has the rows of 3, 4 and 5 and no row for `N = 2`. -/
theorem main_single_argument_5 :
    parse_args atoi ["rectangles", "5"] = some (3, 5) ∧
    (main atoi ["rectangles", "5"]).stdout = "n,rects\n3,1.2\n4,2.2\n5,2.3\n" ∧
    row 2 = "2,1.1\n" := by
  refine ⟨by decide, ?_, by decide⟩
  have hp : parse_args atoi ["rectangles", "5"] = some (3, 5) := by decide
  have h : (main atoi ["rectangles", "5"]).stdout = main_loop 5 3 "n,rects\n" := by
    unfold main
    rw [hp]
    rfl
  rw [h, main_loop_eq 5 _ 3 _ rfl]
  decide

/-! ## Lemmas on `CEIL_DIV` and the closed form of `evendiv` -/

/-- The macro `CEIL_DIV` yields the `c` with `(c - 1) * b < a ≤ c * b`. -/
theorem ceil_div_unique {a b c : Int} (ha : 0 ≤ a) (hb : 0 < b)
    (h1 : (c - 1) * b < a) (h2 : a ≤ c * b) : CEIL_DIV a b = c := by
  unfold CEIL_DIV
  rw [Int.tdiv_eq_ediv (by omega) hb.le]
  apply le_antisymm
  · have h : (a + b - 1) / b < c + 1 := by
      rw [Int.ediv_lt_iff_lt_mul hb]
      nlinarith
    omega
  · rw [Int.le_ediv_iff_mul_le hb]
    nlinarith

/-- When `y` does not divide `x`, `⌈x / y⌉` is the quotient plus one. -/
theorem ceil_div_of_rem {x y : Int} (hx : 0 ≤ x) (hy : 0 < y) (hr : x % y ≠ 0) :
    CEIL_DIV x y = x / y + 1 := by
  have h0 : 0 ≤ x % y := Int.emod_nonneg x (ne_of_gt hy)
  have h1 : x % y < y := Int.emod_lt_of_pos x hy
  have hxy : y * (x / y) + x % y = x := Int.ediv_add_emod x y
  have h2 : 0 < x % y := by omega
  apply ceil_div_unique hx hy
  · nlinarith
  · nlinarith

/-- When `y` divides `x`, `⌈x / y⌉` is the quotient. -/
theorem ceil_div_of_dvd {x y : Int} (hx : 0 ≤ x) (hy : 0 < y) (hr : x % y = 0) :
    CEIL_DIV x y = x / y := by
  have hxy : y * (x / y) + x % y = x := Int.ediv_add_emod x y
  apply ceil_div_unique hx hy
  · nlinarith
  · nlinarith

/-- The number of blocks is unchanged by the normalisation. -/
theorem ceil_div_evendiv {x y : Int} (hx : 0 ≤ x) (hy : 0 < y) :
    CEIL_DIV x (evendiv x y) = CEIL_DIV x y := by
  by_cases hr : x % y = 0
  · rw [evendiv_eq hx hy, if_pos hr]
  · rw [ceil_div_of_rem hx hy hr]
    have hpos := evendiv_pos hx hy
    have hle := evendiv_le hx hy
    have hb := evendiv_blocks hx hy
    have hq : 0 ≤ x / y := Int.ediv_nonneg hx hy.le
    have h0 : 0 ≤ x % y := Int.emod_nonneg x (ne_of_gt hy)
    have hxy : y * (x / y) + x % y = x := Int.ediv_add_emod x y
    apply ceil_div_unique hx hpos
    · have h1 : x / y * evendiv x y ≤ x / y * y := Int.mul_le_mul_of_nonneg_left hle hq
      have h2 : 0 < x % y := by omega
      nlinarith
    · exact hb

/-- The normalised divisor is `⌈x / ⌈x / y⌉⌉`. -/
theorem evendiv_closed_form {x y : Int} (hx : 1 ≤ x) (hy : 1 ≤ y) :
    evendiv x y = CEIL_DIV x (CEIL_DIV x y) := by
  have hx0 : 0 ≤ x := by omega
  have hy0 : 0 < y := by omega
  have hq : 0 ≤ x / y := Int.ediv_nonneg hx0 hy0.le
  have h0 : 0 ≤ x % y := Int.emod_nonneg x (ne_of_gt hy0)
  have h1 : x % y < y := Int.emod_lt_of_pos x hy0
  have hxy : y * (x / y) + x % y = x := Int.ediv_add_emod x y
  by_cases hr : x % y = 0
  · rw [evendiv_eq hx0 hy0, if_pos hr, ceil_div_of_dvd hx0 hy0 hr]
    have hq1 : 0 < x / y := by
      by_contra h
      have hz : x / y = 0 := by omega
      rw [hz, hr] at hxy
      omega
    symm
    apply ceil_div_unique hx0 hq1
    · nlinarith
    · nlinarith
  · rw [evendiv_eq hx0 hy0, if_neg hr, ceil_div_of_rem hx0 hy0 hr]
    have hq1 : 0 < x / y + 1 := by omega
    have hd1 : (y - x % y) / (x / y + 1) * (x / y + 1) ≤ y - x % y :=
      Int.ediv_mul_le _ (ne_of_gt hq1)
    have hd2 : y - x % y < ((y - x % y) / (x / y + 1) + 1) * (x / y + 1) :=
      Int.lt_ediv_add_one_mul_self _ hq1
    symm
    apply ceil_div_unique hx0 hq1
    · nlinarith
    · nlinarith

/-- A total shorter than the candidate block is kept as one block. -/
theorem evendiv_of_lt {x y : Int} (hx : 0 < x) (hxy : x < y) : evendiv x y = x := by
  rw [evendiv_eq hx.le (by omega), Int.emod_eq_of_lt hx.le hxy, Int.ediv_eq_zero_of_lt hx.le hxy]
  rw [if_neg (by omega)]
  simp

/-! ## Lemmas on the strips and the call sites -/

theorem ceil_div_zero {b : Int} (hb : 0 < b) : CEIL_DIV 0 b = 0 := by
  apply ceil_div_unique (le_refl 0) hb <;> omega

/-- The footprint and strip variables in terms of `n`, for `n ≥ 0` and `K = 127`. -/
theorem trace_values {n : Int} (hn : 0 ≤ n) :
    (tile_trace K n).full_w = n / 2 ∧ (tile_trace K n).full_h = n - n / 2 ∧
    (tile_trace K n).right_width = (n / 2) % 63 ∧
    (tile_trace K n).bottom_height = (n - n / 2) % 64 := by
  have hw : (tile_trace K n).full_w = n / 2 := by
    rw [trace_full_w, Int.tdiv_eq_ediv (by omega) (by omega)]
  have hh : (tile_trace K n).full_h = n - n / 2 := by rw [trace_full_h, hw]
  have hrw : (tile_trace K n).right_width = (n / 2) % 63 := by
    rw [trace_right_width, hw, MAX_W_K, Int.tmod_eq_emod (by omega) (by omega)]
  have hbh : (tile_trace K n).bottom_height = (n - n / 2) % 64 := by
    rw [trace_bottom_height, hh, MAX_H_K, Int.tmod_eq_emod (by omega) (by omega)]
  exact ⟨hw, hh, hrw, hbh⟩

/-- The effective extents after the strip assignment are one of the two
adjusted pairs. -/
theorem trace_effective_cases (k n : Int) :
    ((tile_trace k n).segments_for_bottom < (tile_trace k n).segments_for_right ∧
      (tile_trace k n).effective_bottom_w =
        (tile_trace k n).full_w - (tile_trace k n).right_width ∧
      (tile_trace k n).effective_right_h = (tile_trace k n).full_h) ∨
    (¬ (tile_trace k n).segments_for_bottom < (tile_trace k n).segments_for_right ∧
      (tile_trace k n).effective_bottom_w = (tile_trace k n).full_w ∧
      (tile_trace k n).effective_right_h =
        (tile_trace k n).full_h - (tile_trace k n).bottom_height) := by
  rw [trace_effective_bottom_w, trace_effective_right_h]
  by_cases h : (tile_trace k n).segments_for_bottom < (tile_trace k n).segments_for_right
  · left
    rw [if_pos h, if_pos h]
    exact ⟨h, rfl, rfl⟩
  · right
    rw [if_neg h, if_neg h]
    exact ⟨h, rfl, rfl⟩

/-- Both effective extents are non-negative for `n ≥ 0`. -/
theorem trace_effective_nonneg_of_nonneg {n : Int} (hn : 0 ≤ n) :
    0 ≤ (tile_trace K n).effective_right_h ∧ 0 ≤ (tile_trace K n).effective_bottom_w := by
  obtain ⟨hw, hh, hrw, hbh⟩ := trace_values hn
  rcases trace_effective_cases K n with ⟨_, h1, h2⟩ | ⟨_, h1, h2⟩
  · rw [h1, h2, hw, hh, hrw]
    omega
  · rw [h1, h2, hw, hh, hbh]
    omega

/-- The bottom strip always covers a positive width. -/
theorem effective_bottom_w_pos {n : Int} (hn : 2 ≤ n) :
    0 < (tile_trace K n).effective_bottom_w := by
  have hK : K = 127 := rfl
  obtain ⟨hw, hh, hrw, hbh⟩ := trace_values (show 0 ≤ n by omega)
  rcases trace_effective_cases K n with ⟨hlt, h1, _⟩ | ⟨_, h1, _⟩
  · rw [h1, hw, hrw]
    by_cases h63 : 63 ≤ n / 2
    · omega
    · exfalso
      rw [trace_segments_for_bottom, trace_segments_for_right] at hlt
      have e1 : (tile_trace K n).full_w - (tile_trace K n).right_width = 0 := by
        rw [hw, hrw]; omega
      have e2 : (tile_trace K n).full_h - (tile_trace K n).bottom_height = 0 := by
        rw [hh, hbh]; omega
      have p1 : 0 < K - (tile_trace K n).bottom_height := by rw [hbh]; omega
      have p2 : 0 < K - (tile_trace K n).right_width := by rw [hrw]; omega
      rw [e1, e2, ceil_div_zero p1, ceil_div_zero p2] at hlt
      exact lt_irrefl 0 hlt
  · rw [h1, hw]
    omega

/-- From `n = 126` on the right strip, when tiled, covers a positive height. -/
theorem effective_right_h_pos {n : Int} (hn : 126 ≤ n)
    (hr : (tile_trace K n).right_width ≠ 0) : 0 < (tile_trace K n).effective_right_h := by
  obtain ⟨hw, hh, hrw, hbh⟩ := trace_values (show 0 ≤ n by omega)
  rw [hrw] at hr
  rcases trace_effective_cases K n with ⟨_, _, h2⟩ | ⟨_, _, h2⟩
  · rw [h2, hh]
    omega
  · rw [h2, hh, hbh]
    omega

/-- Every divisor inside a call `evendiv(x, y)` with `x ≥ 0`, `y > 0` is positive. -/
theorem evendiv_divisors_pos {x y : Int} (hx : 0 ≤ x) (hy : 0 < y) :
    ∀ d ∈ evendiv_divisors x y, 0 < d := by
  intro d hd
  unfold evendiv_divisors at hd
  rw [List.mem_cons] at hd
  rcases hd with hd | hd
  · rw [hd]
    exact hy
  · split at hd
    · simp at hd
    · rw [List.mem_singleton] at hd
      have hq : 0 ≤ x / y := Int.ediv_nonneg hx hy.le
      rw [hd, Int.tdiv_eq_ediv hx hy.le]
      omega

/-- The argument pairs of the `evendiv` calls. -/
theorem mem_evendiv_calls {k n : Int} {c : Int × Int} (hc : c ∈ evendiv_calls k n) :
    ((tile_trace k n).right_width ≠ 0 ∧
      c = ((tile_trace k n).effective_right_h, k - (tile_trace k n).right_width)) ∨
    ((tile_trace k n).bottom_height ≠ 0 ∧
      c = ((tile_trace k n).effective_bottom_w, k - (tile_trace k n).bottom_height)) := by
  have h : evendiv_calls k n =
      (if (tile_trace k n).right_width ≠ 0 then
          [((tile_trace k n).effective_right_h, k - (tile_trace k n).right_width)] else [])
        ++ (if (tile_trace k n).bottom_height ≠ 0 then
          [((tile_trace k n).effective_bottom_w, k - (tile_trace k n).bottom_height)]
          else []) := rfl
  rw [h, List.mem_append] at hc
  rcases hc with hc | hc
  · left
    split at hc
    · rename_i hne
      exact ⟨hne, List.mem_singleton.mp hc⟩
    · simp at hc
  · right
    split at hc
    · rename_i hne
      exact ⟨hne, List.mem_singleton.mp hc⟩
    · simp at hc

/-! ## Claims on the strips, the call sites and the closed form -/

/-- C11: the claim asks that the right strip holds
`⌊effective_right_h / right_block_h⌋` blocks `right_width × right_block_h`, so
that the heights add up to `effective_right_h`.  At `n = 255` the strip is 1
wide and 128 tall with `right_block_h = evendiv(128, 126) = 64`: two blocks are
due, the loop bound `effective_bottom_w / right_block_h = 126 / 64` gives one,
the leftover `128 % 64` is zero, and the heights emitted add up to 64. -/
theorem right_strip_255 :
    (tile_trace K 255).right_width = 1 ∧
    (tile_trace K 255).effective_right_h = 128 ∧
    (tile_trace K 255).effective_bottom_w = 126 ∧
    (tile_trace K 255).right_block_h = evendiv 128 (K - 1) ∧
    (tile_trace K 255).right_block_h = 64 ∧
    (tile_trace K 255).effective_right_h.tdiv (tile_trace K 255).right_block_h = 2 ∧
    (tile_trace K 255).effective_bottom_w.tdiv (tile_trace K 255).right_block_h = 1 ∧
    (tile_trace K 255).effective_right_h.tmod (tile_trace K 255).right_block_h = 0 ∧
    (tile_trace K 255).right = [(1, 64)] ∧
    ((tile_trace K 255).right.map Prod.snd).sum = 64 := by
  decide

/-- C12: for `n ≥ 2` with `bottom_height > 0` the bottom strip is
`⌊effective_bottom_w / bottom_block_w⌋` rectangles `bottom_block_w × bottom_height`,
where `bottom_block_w = evendiv(effective_bottom_w, K - bottom_height)`, then one
rectangle `(effective_bottom_w mod bottom_block_w) × bottom_height` iff that
remainder is not zero; every rectangle has height `bottom_height` and the widths
add up to `effective_bottom_w`. -/
theorem bottom_strip_exact (n : Int) (hn : 2 ≤ n)
    (hb : 0 < (tile_trace K n).bottom_height) :
    (tile_trace K n).bottom_block_w =
      evendiv (tile_trace K n).effective_bottom_w (K - (tile_trace K n).bottom_height) ∧
    0 < (tile_trace K n).bottom_block_w ∧
    0 ≤ (tile_trace K n).effective_bottom_w.tdiv (tile_trace K n).bottom_block_w ∧
    (tile_trace K n).bottom =
      List.replicate
          ((tile_trace K n).effective_bottom_w.tdiv (tile_trace K n).bottom_block_w).toNat
          ((tile_trace K n).bottom_block_w, (tile_trace K n).bottom_height)
        ++ (if (tile_trace K n).effective_bottom_w.tmod (tile_trace K n).bottom_block_w ≠ 0
            then [((tile_trace K n).effective_bottom_w.tmod (tile_trace K n).bottom_block_w,
              (tile_trace K n).bottom_height)]
            else []) ∧
    (∀ r ∈ (tile_trace K n).bottom, r.2 = (tile_trace K n).bottom_height) ∧
    ((tile_trace K n).bottom.map Prod.fst).sum = (tile_trace K n).effective_bottom_w := by
  have hK : K = 127 := rfl
  have hrg := trace_ranges hn
  have he := trace_effective_nonneg hn
  have hne : (tile_trace K n).bottom_height ≠ 0 := ne_of_gt hb
  have hy : 0 < K - (tile_trace K n).bottom_height := by omega
  have hbw : (tile_trace K n).bottom_block_w =
      evendiv (tile_trace K n).effective_bottom_w (K - (tile_trace K n).bottom_height) := by
    rw [trace_bottom_block_w, if_pos hne]
  have hpos : 0 < (tile_trace K n).bottom_block_w := by
    rw [hbw]
    exact evendiv_pos he.2 hy
  have hdiv : (tile_trace K n).effective_bottom_w.tdiv (tile_trace K n).bottom_block_w =
      (tile_trace K n).effective_bottom_w / (tile_trace K n).bottom_block_w :=
    Int.tdiv_eq_ediv he.2 hpos.le
  have hmod : (tile_trace K n).effective_bottom_w.tmod (tile_trace K n).bottom_block_w =
      (tile_trace K n).effective_bottom_w % (tile_trace K n).bottom_block_w :=
    Int.tmod_eq_emod he.2 hpos.le
  have hq : 0 ≤ (tile_trace K n).effective_bottom_w / (tile_trace K n).bottom_block_w :=
    Int.ediv_nonneg he.2 hpos.le
  have hbot := trace_bottom K n
  rw [if_pos hne] at hbot
  unfold repeat_rect at hbot
  refine ⟨hbw, hpos, by rw [hdiv]; exact hq, hbot, fun r hr => (mem_bottom hn hr).1, ?_⟩
  have hsplit := Int.ediv_add_emod (tile_trace K n).effective_bottom_w
    (tile_trace K n).bottom_block_w
  rw [hbot, hdiv, hmod, List.map_append, List.sum_append, List.map_replicate,
    List.sum_replicate, nsmul_eq_mul, Int.toNat_of_nonneg hq]
  split
  · simp only [List.map_cons, List.map_nil, List.sum_cons, List.sum_nil]
    linarith
  · rename_i hz
    simp only [List.map_nil, List.sum_nil]
    have hz0 : (tile_trace K n).effective_bottom_w % (tile_trace K n).bottom_block_w = 0 := by
      by_contra hc
      exact hz hc
    linarith

/-- Instance of `bottom_strip_exact` at `n = 1300`: footprint `650 × 650`, bottom
strip of height 10 tiled by six blocks `105 × 10` and a leftover `20 × 10`. -/
theorem bottom_strip_exact_witness :
    ((2 : Int) ≤ 1300 ∧ 0 < (tile_trace K 1300).bottom_height) ∧
    ((tile_trace K 1300).bottom.map Prod.fst).sum = (tile_trace K 1300).effective_bottom_w :=
  ⟨by decide, (bottom_strip_exact 1300 (by decide) (by decide)).2.2.2.2.2⟩

/-- C13: for `n ≥ 2` the strip assignment leaves either
`(effective_bottom_w, effective_right_h) = (full_w - right_width, full_h)` (when
`segments_for_bottom < segments_for_right`) or `(full_w, full_h - bottom_height)`
(otherwise), and in both cases the bulk region and the two strips, all of
non-negative extent, have total area `full_w * full_h`. -/
theorem corner_assignment (n : Int) (hn : 2 ≤ n) :
    (((tile_trace K n).segments_for_bottom < (tile_trace K n).segments_for_right ∧
        ((tile_trace K n).effective_bottom_w, (tile_trace K n).effective_right_h) =
          ((tile_trace K n).full_w - (tile_trace K n).right_width, (tile_trace K n).full_h)) ∨
      (¬ (tile_trace K n).segments_for_bottom < (tile_trace K n).segments_for_right ∧
        ((tile_trace K n).effective_bottom_w, (tile_trace K n).effective_right_h) =
          ((tile_trace K n).full_w,
            (tile_trace K n).full_h - (tile_trace K n).bottom_height))) ∧
    ((tile_trace K n).full_w - (tile_trace K n).right_width) *
        ((tile_trace K n).full_h - (tile_trace K n).bottom_height) +
      (tile_trace K n).right_width * (tile_trace K n).effective_right_h +
      (tile_trace K n).effective_bottom_w * (tile_trace K n).bottom_height =
        (tile_trace K n).full_w * (tile_trace K n).full_h ∧
    (0 ≤ (tile_trace K n).full_w - (tile_trace K n).right_width ∧
      0 ≤ (tile_trace K n).full_h - (tile_trace K n).bottom_height ∧
      0 ≤ (tile_trace K n).right_width ∧ 0 ≤ (tile_trace K n).bottom_height ∧
      0 ≤ (tile_trace K n).effective_right_h ∧ 0 ≤ (tile_trace K n).effective_bottom_w) ∧
    (tile_trace K n).full_w = n.tdiv 2 ∧
    (tile_trace K n).full_h = n - n.tdiv 2 ∧
    (tile_trace K n).right_width = (n.tdiv 2).tmod (MAX_W K) ∧
    (tile_trace K n).bottom_height = (n - n.tdiv 2).tmod (MAX_H K) := by
  have hrg := trace_ranges hn
  have he := trace_effective_nonneg hn
  refine ⟨?_, ?_, ⟨by omega, by omega, hrg.2.2.1, by omega, he.1, he.2⟩, rfl, rfl, rfl, rfl⟩
  · rcases trace_effective_cases K n with ⟨h, h1, h2⟩ | ⟨h, h1, h2⟩
    · left
      exact ⟨h, by rw [h1, h2]⟩
    · right
      exact ⟨h, by rw [h1, h2]⟩
  · rcases trace_effective_cases K n with ⟨_, h1, h2⟩ | ⟨_, h1, h2⟩ <;>
      rw [h1, h2] <;> ring

/-- Instance of `corner_assignment` at `n = 254`: footprint `127 × 127` with a
`1 × 63` corner, which goes to the bottom strip. -/
theorem corner_assignment_witness :
    (2 : Int) ≤ 254 ∧
    ((tile_trace K 254).right_width = 1 ∧ (tile_trace K 254).bottom_height = 63 ∧
      (tile_trace K 254).effective_bottom_w = 127 ∧
      (tile_trace K 254).effective_right_h = 64) ∧
    ((tile_trace K 254).full_w - (tile_trace K 254).right_width) *
        ((tile_trace K 254).full_h - (tile_trace K 254).bottom_height) +
      (tile_trace K 254).right_width * (tile_trace K 254).effective_right_h +
      (tile_trace K 254).effective_bottom_w * (tile_trace K 254).bottom_height =
        (tile_trace K 254).full_w * (tile_trace K 254).full_h :=
  ⟨by decide, by decide, (corner_assignment 254 (by decide)).2.1⟩

/-- C14, as stated, fails: for `n = 2` the right strip is tiled
(`right_width = 1`) and its call is `evendiv(0, 126)`, with `x = 0`. -/
theorem evendiv_call_zero_2 :
    ¬ ∀ n : Int, 2 ≤ n → ∀ c ∈ evendiv_calls K n, 0 < c.1 ∧ 0 < c.2 := by
  intro h
  have h1 := h 2 (by decide) (0, 126) (by decide)
  exact absurd h1.1 (by decide)

/-- C14, amended: for every `n ≥ 2` each call `evendiv(x, y)` made by the tiler
has `x ≥ 0` and `y > 0`; the bottom-strip call always has `x > 0`; from
`n = 126` on every call has `x > 0` and `y > 0`; and for `2 ≤ n ≤ 125` the right
strip is tiled, its call has `x = effective_right_h = 0`, and `evendiv` returns
`y` on it. -/
theorem evendiv_calls_args (n : Int) (hn : 2 ≤ n) :
    (∀ c ∈ evendiv_calls K n, 0 ≤ c.1 ∧ 0 < c.2) ∧
    ((tile_trace K n).bottom_height ≠ 0 → 0 < (tile_trace K n).effective_bottom_w) ∧
    (126 ≤ n → ∀ c ∈ evendiv_calls K n, 0 < c.1 ∧ 0 < c.2) ∧
    (n ≤ 125 →
      (tile_trace K n).right_width ≠ 0 ∧ (tile_trace K n).effective_right_h = 0 ∧
      (0, K - (tile_trace K n).right_width) ∈ evendiv_calls K n ∧
      evendiv (tile_trace K n).effective_right_h (K - (tile_trace K n).right_width) =
        K - (tile_trace K n).right_width) := by
  have hK : K = 127 := rfl
  have hrg := trace_ranges hn
  have he := trace_effective_nonneg hn
  have hbw := effective_bottom_w_pos hn
  refine ⟨?_, fun _ => hbw, ?_, ?_⟩
  · intro c hc
    rcases mem_evendiv_calls hc with ⟨_, h⟩ | ⟨_, h⟩ <;> rw [h] <;> simp only <;>
      constructor <;> omega
  · intro h126 c hc
    rcases mem_evendiv_calls hc with ⟨hr, h⟩ | ⟨_, h⟩
    · have hp := effective_right_h_pos h126 hr
      rw [h]
      simp only
      constructor <;> omega
    · rw [h]
      simp only
      constructor <;> omega
  · intro h125
    interval_cases n <;> decide

/-- Instance of `evendiv_calls_args` at `n = 2`, whose calls are `evendiv(0, 126)`
and `evendiv(1, 126)`. -/
theorem evendiv_calls_args_witness :
    (2 : Int) ≤ 2 ∧ (∀ c ∈ evendiv_calls K 2, 0 ≤ c.1 ∧ 0 < c.2) ∧
    ((2 : Int) ≤ 125 ∧ (0, K - (tile_trace K 2).right_width) ∈ evendiv_calls K 2 ∧
      evendiv (tile_trace K 2).effective_right_h (K - (tile_trace K 2).right_width) =
        K - (tile_trace K 2).right_width) :=
  ⟨by decide, (evendiv_calls_args 2 (by decide)).1, by decide,
    ((evendiv_calls_args 2 (by decide)).2.2.2 (by decide)).2.2⟩

/-- C15: for `2 ≤ n ≤ 254` the rectangles emitted have total area
`(n / 2) * (n - n / 2)`, and the right strip's repeat count taken from
`effective_bottom_w` equals the count taken from `effective_right_h`. -/
theorem area_up_to_254 (n : Int) (h2 : 2 ≤ n) (h254 : n ≤ 254) :
    totalArea (tile_vandermonde n) = n.tdiv 2 * (n - n.tdiv 2) ∧
    (tile_trace K n).effective_bottom_w.tdiv (tile_trace K n).right_block_h =
      (tile_trace K n).effective_right_h.tdiv (tile_trace K n).right_block_h := by
  interval_cases n <;> decide

/-- Instance of `area_up_to_254` at `n = 254`, footprint `127 × 127`. -/
theorem area_up_to_254_witness :
    ((2 : Int) ≤ 254 ∧ (254 : Int) ≤ 254) ∧ totalArea (tile_vandermonde 254) = 127 * 127 :=
  ⟨by decide, (area_up_to_254 254 (by decide) (by decide)).1⟩

/-- C17: for all `x ≥ 1` and `y ≥ 1`, `evendiv(x, y) = ⌈x / ⌈x / y⌉⌉`, the most
even split into the same number of blocks; in particular `evendiv(x, y) = x`
whenever `0 < x < y`. -/
theorem evendiv_eq_even_split (x y : Int) (hx : 1 ≤ x) (hy : 1 ≤ y) :
    evendiv x y = even_split x y ∧ (x < y → evendiv x y = x) :=
  ⟨evendiv_closed_form hx hy, fun h => evendiv_of_lt (by omega) h⟩

/-- Instance of `evendiv_eq_even_split` at `x = 64`, `y = 126`, the right-strip
call of `n = 128`. -/
theorem evendiv_eq_even_split_witness :
    ((1 : Int) ≤ 64 ∧ (1 : Int) ≤ 126) ∧
    (evendiv 64 126 = even_split 64 126 ∧ ((64 : Int) < 126 → evendiv 64 126 = 64)) :=
  ⟨by decide, evendiv_eq_even_split 64 126 (by decide) (by decide)⟩

/-- C18: for every `n ≥ 0` every divisor used by `tile_vandermonde(n)` and by the
`evendiv` calls it makes is positive: 2, `MAX_W`, `MAX_H`, `K - bottom_height`,
`K - right_width`, the `y` and `q + 1` of each `evendiv` call, and the
normalised `right_block_h` and `bottom_block_w`. -/
theorem no_division_by_zero (n : Int) (hn : 0 ≤ n) :
    ∀ d ∈ tile_divisors K n, 0 < d := by
  have hK : K = 127 := rfl
  obtain ⟨hw, hh, hrw, hbh⟩ := trace_values hn
  have he := trace_effective_nonneg_of_nonneg hn
  have hy1 : 0 < K - (tile_trace K n).right_width := by rw [hrw]; omega
  have hy2 : 0 < K - (tile_trace K n).bottom_height := by rw [hbh]; omega
  have h : tile_divisors K n =
      [2, MAX_W K, MAX_H K, K - (tile_trace K n).bottom_height,
          K - (tile_trace K n).right_width]
        ++ (if (tile_trace K n).right_width ≠ 0 then
              evendiv_divisors (tile_trace K n).effective_right_h
                  (K - (tile_trace K n).right_width)
                ++ [(tile_trace K n).right_block_h]
            else [])
        ++ (if (tile_trace K n).bottom_height ≠ 0 then
              evendiv_divisors (tile_trace K n).effective_bottom_w
                  (K - (tile_trace K n).bottom_height)
                ++ [(tile_trace K n).bottom_block_w]
            else []) := rfl
  intro d hd
  rw [h, List.mem_append, List.mem_append] at hd
  rcases hd with (hd | hd) | hd
  · simp only [List.mem_cons, List.mem_singleton, List.not_mem_nil, or_false] at hd
    rcases hd with hd | hd | hd | hd | hd
    · rw [hd]; decide
    · rw [hd]; decide
    · rw [hd]; decide
    · rw [hd]; exact hy2
    · rw [hd]; exact hy1
  · split at hd
    · rename_i hne
      rw [List.mem_append, List.mem_singleton] at hd
      rcases hd with hd | hd
      · exact evendiv_divisors_pos he.1 hy1 d hd
      · rw [hd, trace_right_block_h, if_pos hne]
        exact evendiv_pos he.1 hy1
    · simp at hd
  · split at hd
    · rename_i hne
      rw [List.mem_append, List.mem_singleton] at hd
      rcases hd with hd | hd
      · exact evendiv_divisors_pos he.2 hy2 d hd
      · rw [hd, trace_bottom_block_w, if_pos hne]
        exact evendiv_pos he.2 hy2
    · simp at hd

/-- Instance of `no_division_by_zero` at `n = 1`, where only the bottom strip is
tiled and its call is `evendiv(0, 126)`. -/
theorem no_division_by_zero_witness :
    (0 : Int) ≤ 1 ∧ ∀ d ∈ tile_divisors K 1, 0 < d :=
  ⟨by decide, no_division_by_zero 1 (by decide)⟩

/-! ## Lemmas on 32-bit arithmetic and the driver's loop -/

/-- Without overflow of `a + b - 1` the macro on `int` is the macro on integers. -/
theorem CEIL_DIV_int_eq {a b : Int} (ha : 0 ≤ a) (hb : 0 < b) (h : a + b - 1 ≤ INT_MAX) :
    CEIL_DIV_int a b = CEIL_DIV a b := by
  have hw : wrap_int (wrap_int (a + b) - 1) = a + b - 1 := by
    unfold wrap_int
    unfold INT_MAX at h
    omega
  unfold CEIL_DIV_int CEIL_DIV
  rw [hw]

/-- The macro `CEIL_DIV` yields a `c` with `(c - 1) * b < a ≤ c * b`. -/
theorem ceil_div_spec {a b : Int} (ha : 0 ≤ a) (hb : 0 < b) :
    (CEIL_DIV a b - 1) * b < a ∧ a ≤ CEIL_DIV a b * b := by
  unfold CEIL_DIV
  rw [Int.tdiv_eq_ediv (by omega) hb.le]
  have h1 : (a + b - 1) / b * b ≤ a + b - 1 := Int.ediv_mul_le _ (ne_of_gt hb)
  have h2 : a + b - 1 < ((a + b - 1) / b + 1) * b := Int.lt_ediv_add_one_mul_self _ hb
  constructor
  · nlinarith
  · nlinarith

/-! ## Claims on the driver and on `CEIL_DIV` over `int` -/

/-- C16, as stated, fails on `int`: for `x = 2^30`, `y = 2^30 + 5` the call
`evendiv(x, y)` gives `x`, `CEIL_DIV(x, x)` is 1, and in `CEIL_DIV(x, y)` the sum
`x + y - 1` exceeds `INT_MAX` and wraps to a negative value, giving -1. -/
theorem ceil_div_int_overflow :
    ¬ ∀ x y : Int, 1 ≤ x → 1 ≤ y → x ≤ INT_MAX → y ≤ INT_MAX →
      CEIL_DIV_int x (evendiv x y) = CEIL_DIV_int x y := by
  intro h
  have h1 := h 1073741824 1073741829 (by decide) (by decide) (by decide) (by decide)
  exact absurd h1 (by decide)

/-- C16, amended: for all `x ≥ 1` and `y ≥ 1` with `x + y - 1 ≤ INT_MAX`,
`CEIL_DIV(x, evendiv(x, y)) = CEIL_DIV(x, y)`, and this common value `c` is the
number of blocks for both block sizes: `(c - 1) * y < x ≤ c * y` and
`(c - 1) * evendiv(x, y) < x ≤ c * evendiv(x, y)`. -/
theorem evendiv_same_block_count (x y : Int) (hx : 1 ≤ x) (hy : 1 ≤ y)
    (hb : x + y - 1 ≤ INT_MAX) :
    CEIL_DIV_int x (evendiv x y) = CEIL_DIV_int x y ∧
    ((CEIL_DIV_int x y - 1) * y < x ∧ x ≤ CEIL_DIV_int x y * y) ∧
    ((CEIL_DIV_int x y - 1) * evendiv x y < x ∧ x ≤ CEIL_DIV_int x y * evendiv x y) := by
  have hx0 : 0 ≤ x := by omega
  have hy0 : 0 < y := by omega
  have hpos := evendiv_pos hx0 hy0
  have hle := evendiv_le hx0 hy0
  have e1 : CEIL_DIV_int x y = CEIL_DIV x y := CEIL_DIV_int_eq hx0 hy0 hb
  have e2 : CEIL_DIV_int x (evendiv x y) = CEIL_DIV x (evendiv x y) :=
    CEIL_DIV_int_eq hx0 hpos (by omega)
  have e3 := ceil_div_evendiv hx0 hy0
  have s1 := ceil_div_spec hx0 hy0
  have s2 := ceil_div_spec hx0 hpos
  rw [e3] at s2
  rw [e1, e2, e3]
  exact ⟨rfl, s1, s2⟩

/-- Instance of `evendiv_same_block_count` at `x = 126`, `y = 65`: two blocks
before and after. -/
theorem evendiv_same_block_count_witness :
    ((1 : Int) ≤ 126 ∧ (1 : Int) ≤ 65 ∧ (126 : Int) + 65 - 1 ≤ INT_MAX) ∧
    CEIL_DIV_int 126 (evendiv 126 65) = CEIL_DIV_int 126 65 ∧ CEIL_DIV_int 126 65 = 2 :=
  ⟨by decide, (evendiv_same_block_count 126 65 (by decide) (by decide) (by decide)).1,
    by decide⟩

end Uniqenum
